import Mathlib

/-!
Verification of the MLEM/MAP neutron-spectrum unfolding engine
(McGillMedPhys/Neutron-Spectrometry).

The definitions below are a shallow embedding of `runMLEM` from
`src/mlem/main.cpp` (lines 1261-1356), of the Poisson-resampling
aggregation step of `main` in the same file (lines 530-565), and — modelled
from the specification, since its implementation is not part of the two
source files — of the MAP solver `runMAP` called from
`src/unfolding/source/auto_unfold_spectrum.cpp`.  Machine `double`s are
modelled by `ℚ`; the by-reference parameters of `runMLEM` are gathered in a
state structure that the loop threads through.
-/

namespace NeutronSpec

/-- The four by-reference vector/matrix parameters of `runMLEM`
(`measurements`, `spectrum`, `nns_response`, `mlem_ratio`). -/
structure MLEMState where
  measurements : List ℚ
  spectrum : List ℚ
  nns_response : List (List ℚ)
  mlem_ratio : List ℚ
  deriving DecidableEq, Repr

/-- `nns_response[m][b]` — entry access on the response matrix
(out-of-range reads default to `0`; all claims use in-range indices). -/
def respEntry (resp : List (List ℚ)) (m b : ℕ) : ℚ :=
  (resp.getD m []).getD b 0

/-- The `mlem_estimate` vector of one `runMLEM` iteration:
`temp_value += nns_response[i_meas][i_bin]*spectrum[i_bin]` summed over
`i_bin < num_bins`, one entry pushed per `i_meas < num_measurements`. -/
def mlem_estimate (M B : ℕ) (resp : List (List ℚ)) (spec : List ℚ) : List ℚ :=
  (List.range M).map (fun m =>
    ((List.range B).map (fun b => respEntry resp m b * spec.getD b 0)).sum)

/-- The `transpose_response` matrix built by each `runMLEM` iteration:
`transpose_response[i_bin][i_meas] = nns_response[i_meas][i_bin]`. -/
def transpose_response (M B : ℕ) (resp : List (List ℚ)) : List (List ℚ) :=
  (List.range B).map (fun b => (List.range M).map (fun m => respEntry resp m b))

/-- The `mlem_ratio` vector pushed each iteration:
`measurements[i_meas]/mlem_estimate[i_meas]`. -/
def mlem_ratio_vec (M : ℕ) (meas est : List ℚ) : List ℚ :=
  (List.range M).map (fun m => meas.getD m 0 / est.getD m 0)

/-- The `mlem_correction` vector:
`temp_value += transpose_response[i_bin][i_meas]*mlem_ratio[i_meas]`. -/
def mlem_correction (M B : ℕ) (trans : List (List ℚ)) (ratio : List ℚ) : List ℚ :=
  (List.range B).map (fun b =>
    ((List.range M).map (fun m => respEntry trans b m * ratio.getD m 0)).sum)

/-- The `mlem_normalization` vector:
`temp_value += transpose_response[i_bin][i_meas]`. -/
def mlem_normalization (M B : ℕ) (trans : List (List ℚ)) : List ℚ :=
  (List.range B).map (fun b =>
    ((List.range M).map (fun m => respEntry trans b m)).sum)

/-- One iteration of the `for (mlem_index = 1; ...)` loop body of `runMLEM`,
up to and including the in-place spectrum update
`spectrum[i_bin] = (spectrum[i_bin]*mlem_correction[i_bin]/mlem_normalization[i_bin])`.
The loop body writes only `spectrum` and `mlem_ratio`. -/
def mlemStep (M B : ℕ) (s : MLEMState) : MLEMState :=
  let est := mlem_estimate M B s.nns_response s.spectrum
  let trans := transpose_response M B s.nns_response
  let ratio := mlem_ratio_vec M s.measurements est
  let corr := mlem_correction M B trans ratio
  let norm := mlem_normalization M B trans
  { s with
    spectrum := (List.range B).map
      (fun b => s.spectrum.getD b 0 * corr.getD b 0 / norm.getD b 0)
    mlem_ratio := ratio }

/-- The `continue_mlem` flag: set when some `i_meas < num_measurements` has
`mlem_ratio[i_meas] >= (1+error) || mlem_ratio[i_meas] <= (1-error)`. -/
def continue_mlem (error : ℚ) (M : ℕ) (ratio : List ℚ) : Bool :=
  (List.range M).any (fun m =>
    decide (1 + error ≤ ratio.getD m 0) || decide (ratio.getD m 0 ≤ 1 - error))

/-- The iteration loop of `runMLEM` (and, per spec §4.4, the convergence
policy shared with the MAP solver): `fuel` counts the remaining loop-guard
successes (`mlem_index < cutoff`), `idx` is the current value of
`mlem_index`.  When the guard fails, `mlem_index` (= `idx`) is returned
unchanged together with the current state; otherwise the body runs
(`step`), and the loop breaks — returning the pre-increment `mlem_index` —
exactly when `continue_mlem` is not set. -/
def unfoldGo (step : MLEMState → MLEMState) (error : ℚ) (M : ℕ) :
    ℕ → ℕ → MLEMState → ℕ × MLEMState
  | 0, idx, s => (idx, s)
  | fuel + 1, idx, s =>
    if continue_mlem error M (step s).mlem_ratio then
      unfoldGo step error M fuel (idx + 1) (step s)
    else
      (idx, step s)

/-- `runMLEM(cutoff, error, num_measurements, num_bins, measurements,
spectrum, nns_response, mlem_ratio)` of `src/mlem/main.cpp`: `mlem_index`
starts at `1` and the loop body runs at most `cutoff - 1` times; the final
value of `mlem_index` is returned, together with the final state of the
by-reference parameters. -/
def runMLEM (cutoff : ℕ) (error : ℚ) (M B : ℕ) (s : MLEMState) : ℕ × MLEMState :=
  unfoldGo (mlemStep M B) error M (cutoff - 1) 1 s

/-- The squared-deviation accumulator `sq` of `main` in `src/mlem/main.cpp`
(lines 530-540): declared `double sq[52][1]` with NO initializer and then
incremented with
`sq[i][j] += (poissmat[i][k]-spectrum[i])*(poissmat[i][k]-spectrum[i])`
over the `num_poisson_samples` replicates `k`.  The parameter `junk`
models the indeterminate initial contents of the uninitialized stack
array.  `poissmat` is indexed `[bin][sample]`, `spectrum` is the reference
spectrum of the preceding `runMLEM` call. -/
def sq_accum (junk : List ℚ) (nbins N : ℕ) (poissmat : List (List ℚ))
    (spectrum : List ℚ) : List ℚ :=
  (List.range nbins).map (fun i =>
    junk.getD i 0 + ((List.range N).map (fun k =>
      ((poissmat.getD i []).getD k 0 - spectrum.getD i 0) *
      ((poissmat.getD i []).getD k 0 - spectrum.getD i 0))).sum)

/-- `sq_average[i][j] = (sq[i][j])/(num_poisson_samples)` of `main` in
`src/mlem/main.cpp` (lines 546-553); the reported per-bin uncertainty is
`s[i][j] = sqrt(sq_average[i][j])`, so it is `0` exactly when
`sq_average[i][j] = 0`. -/
def sq_average (junk : List ℚ) (nbins N : ℕ) (poissmat : List (List ℚ))
    (spectrum : List ℚ) : List ℚ :=
  (List.range nbins).map (fun i =>
    (sq_accum junk nbins N poissmat spectrum).getD i 0 / (N : ℚ))

/-- Modelled from the spec: the `energy_correction` vector of the MAP
solver `runMAP`, whose implementation is not among the source files (it is
only called from `src/unfolding/source/auto_unfold_spectrum.cpp`).  Per
spec §4.3 it is "a function of `beta`, the chosen prior's gradient with
respect to neighboring bins, and the current spectrum", with `beta = 0`
reducing MAP exactly to MLEM; the prior's gradient is kept abstract
(`priorGrad`) and enters multiplicatively weighted by `beta`. -/
def energy_correction (beta : ℚ) (priorGrad : List ℚ → ℕ → ℚ)
    (spec : List ℚ) (b : ℕ) : ℚ :=
  1 + beta * priorGrad spec b

/-- Modelled from the spec: one iteration of the MAP solver.  Per spec
§4.3, identical to the MLEM iteration except that step 4 becomes
`spectrum[b] *= correction[b] / (normalized_response[b] * energy_correction[b])`. -/
def mapStep (beta : ℚ) (priorGrad : List ℚ → ℕ → ℚ) (M B : ℕ)
    (s : MLEMState) : MLEMState :=
  let est := mlem_estimate M B s.nns_response s.spectrum
  let trans := transpose_response M B s.nns_response
  let ratio := mlem_ratio_vec M s.measurements est
  let corr := mlem_correction M B trans ratio
  let norm := mlem_normalization M B trans
  { s with
    spectrum := (List.range B).map (fun b =>
      s.spectrum.getD b 0 * corr.getD b 0 /
        (norm.getD b 0 * energy_correction beta priorGrad s.spectrum b))
    mlem_ratio := ratio }

/-- Modelled from the spec: `runMAP`, sharing the iteration cap and
ratio-based convergence policy of `runMLEM` (spec §4.4: the convergence
policy is "shared by both solvers"). -/
def runMAP (beta : ℚ) (priorGrad : List ℚ → ℕ → ℚ) (cutoff : ℕ)
    (error : ℚ) (M B : ℕ) (s : MLEMState) : ℕ × MLEMState :=
  unfoldGo (mapStep beta priorGrad M B) error M (cutoff - 1) 1 s

/-- The concrete scenario of spec §8: `response = [[1,0],[0,1]]`,
`measurements = [2,3]`, `initial_spectrum = [1,1]` (the `mlem_ratio`
vector starts empty). -/
def sC5 : MLEMState := ⟨[2, 3], [1, 1], [[1, 0], [0, 1]], []⟩

/-- Input whose first-iteration ratio is exactly `1 + error` for
`error = 1/2`: `response = [[1]]`, `measurements = [3/2]`,
`initial_spectrum = [1]`. -/
def sC3 : MLEMState := ⟨[3/2], [1], [[1]], []⟩

/-- Input whose first-iteration ratio is exactly `1`, strictly within
tolerance: `response = [[1]]`, `measurements = [1]`, `initial_spectrum = [1]`. -/
def sC3w : MLEMState := ⟨[1], [1], [[1]], []⟩

/-- Input that never satisfies the tolerance `error = 1/2`:
`response = [[1]]`, `measurements = [3]`, `initial_spectrum = [1]`
(the first-iteration ratio is `3`, and the spectrum then reproduces the
measurement only after further iterations). -/
def sC4 : MLEMState := ⟨[3], [1], [[1]], []⟩

/-- Input with a zero estimate: `response = [[0]]`, `measurements = [1]`,
`initial_spectrum = [1]`, so `mlem_estimate[0] = 0` on iteration 1. -/
def sC6 : MLEMState := ⟨[1], [1], [[0]], []⟩

/-- Input on which the tolerance `error = 1/2` is never met:
`response = [[1],[1]]`, `measurements = [1,3]`, `initial_spectrum = [1]`.
The two ratios always differ by a factor `3` so they are never
simultaneously inside `(1/2, 3/2)`; every iteration maps the spectrum to
`[2]` exactly. -/
def sC7 : MLEMState := ⟨[1, 3], [1], [[1], [1]], []⟩

end NeutronSpec

namespace NeutronSpec

/-- Reading a mapped range list at an in-range index. -/
theorem getD_map_range {α : Type} (d : α) (f : ℕ → α) {n m : ℕ} (h : m < n) :
    ((List.range n).map f).getD m d = f m := by
  rw [List.getD_eq_getElem?_getD, List.getElem?_map, List.getElem?_range h]
  rfl

/-- An out-of-range `getD` read returns the default. -/
theorem getD_of_len_le {α : Type} (d : α) (xs : List α) {i : ℕ}
    (h : xs.length ≤ i) : xs.getD i d = d := by
  rw [List.getD_eq_getElem?_getD, List.getElem?_eq_none h]
  rfl

/-- Entrywise nonnegativity transfers to `getD` reads. -/
theorem getD_nonneg (xs : List ℚ) (h : ∀ x ∈ xs, 0 ≤ x) (i : ℕ) :
    0 ≤ xs.getD i 0 := by
  rcases Nat.lt_or_ge i xs.length with hi | hi
  · rw [List.getD_eq_getElem?_getD, List.getElem?_eq_getElem hi]
    exact h _ (List.getElem_mem hi)
  · rw [getD_of_len_le 0 xs hi]

/-- The final `mlem_index` is bounded by the initial index plus the fuel. -/
theorem unfoldGo_fst_le (step : MLEMState → MLEMState) (error : ℚ) (M : ℕ) :
    ∀ fuel idx s, (unfoldGo step error M fuel idx s).1 ≤ idx + fuel := by
  intro fuel
  induction fuel with
  | zero => intro idx s; exact Nat.le_add_right idx 0
  | succ n ih =>
    intro idx s
    simp only [unfoldGo]
    by_cases h : continue_mlem error M (step s).mlem_ratio = true
    · rw [if_pos h]
      have := ih (idx + 1) (step s)
      omega
    · rw [if_neg h]
      have : (idx, step s).1 = idx := rfl
      omega

/-- The final `mlem_index` is at least the initial index. -/
theorem unfoldGo_le_fst (step : MLEMState → MLEMState) (error : ℚ) (M : ℕ) :
    ∀ fuel idx s, idx ≤ (unfoldGo step error M fuel idx s).1 := by
  intro fuel
  induction fuel with
  | zero => intro idx s; exact Nat.le_refl idx
  | succ n ih =>
    intro idx s
    simp only [unfoldGo]
    by_cases h : continue_mlem error M (step s).mlem_ratio = true
    · rw [if_pos h]
      have := ih (idx + 1) (step s)
      omega
    · rw [if_neg h]

/-- If `continue_mlem` is set after every one of the first `fuel` steps, the
loop exhausts its fuel: it returns `idx + fuel` and the `fuel`-fold
iterate of the step function. -/
theorem unfoldGo_eq_of_forall_continue (step : MLEMState → MLEMState)
    (error : ℚ) (M : ℕ) :
    ∀ fuel idx s,
      (∀ k < fuel, continue_mlem error M (step^[k+1] s).mlem_ratio = true) →
      unfoldGo step error M fuel idx s = (idx + fuel, step^[fuel] s) := by
  intro fuel
  induction fuel with
  | zero => intro idx s _; rfl
  | succ n ih =>
    intro idx s h
    have h0 : continue_mlem error M (step s).mlem_ratio = true := by
      have := h 0 (Nat.succ_pos n)
      rwa [Function.iterate_one] at this
    have hrec := ih (idx + 1) (step s) (fun k hk => by
      have := h (k + 1) (by omega)
      rwa [Function.iterate_succ_apply] at this)
    calc unfoldGo step error M (n + 1) idx s
        = unfoldGo step error M n (idx + 1) (step s) := by
          simp only [unfoldGo]; rw [if_pos h0]
      _ = (idx + 1 + n, step^[n] (step s)) := hrec
      _ = (idx + (n + 1), step^[n+1] s) := by
          rw [Function.iterate_succ_apply]
          refine Prod.ext ?_ rfl
          simp
          omega

/-- Conversely, a run that exhausts its fuel had `continue_mlem` set after
every step. -/
theorem forall_continue_of_unfoldGo_eq (step : MLEMState → MLEMState)
    (error : ℚ) (M : ℕ) :
    ∀ fuel idx s,
      (unfoldGo step error M fuel idx s).1 = idx + fuel →
      ∀ k < fuel, continue_mlem error M (step^[k+1] s).mlem_ratio = true := by
  intro fuel
  induction fuel with
  | zero => intro idx s _ k hk; omega
  | succ n ih =>
    intro idx s h k hk
    by_cases h0 : continue_mlem error M (step s).mlem_ratio = true
    · rcases k with _ | k2
      · rwa [Function.iterate_one]
      · have hh : (unfoldGo step error M n (idx + 1) (step s)).1 = idx + (n + 1) := by
          have e : unfoldGo step error M (n + 1) idx s
              = unfoldGo step error M n (idx + 1) (step s) := by
            simp only [unfoldGo]; rw [if_pos h0]
          rw [← e]; exact h
        have := ih (idx + 1) (step s) (by omega : _ = idx + 1 + n) k2 (by omega)
        rwa [← Function.iterate_succ_apply] at this
    · exfalso
      have e : unfoldGo step error M (n + 1) idx s = (idx, step s) := by
        simp only [unfoldGo]; rw [if_neg h0]
      rw [e] at h
      have : idx = idx + (n + 1) := h
      omega

/-- The state returned by the loop is some iterate of the step function,
with at most `fuel` applications. -/
theorem unfoldGo_snd_iterate (step : MLEMState → MLEMState) (error : ℚ) (M : ℕ) :
    ∀ fuel idx s, ∃ k ≤ fuel, (unfoldGo step error M fuel idx s).2 = step^[k] s := by
  intro fuel
  induction fuel with
  | zero => intro idx s; exact ⟨0, Nat.le_refl 0, rfl⟩
  | succ n ih =>
    intro idx s
    by_cases h0 : continue_mlem error M (step s).mlem_ratio = true
    · obtain ⟨k, hk, he⟩ := ih (idx + 1) (step s)
      refine ⟨k + 1, by omega, ?_⟩
      have e : (unfoldGo step error M (n + 1) idx s).2
          = (unfoldGo step error M n (idx + 1) (step s)).2 := by
        simp only [unfoldGo]; rw [if_pos h0]
      rw [e, he, Function.iterate_succ_apply]
    · refine ⟨1, by omega, ?_⟩
      have e : (unfoldGo step error M (n + 1) idx s).2 = step s := by
        simp only [unfoldGo]; rw [if_neg h0]
      rw [e, Function.iterate_one]

/-- `continue_mlem` is clear exactly when every ratio lies strictly inside
the open interval `(1 - error, 1 + error)`. -/
theorem continue_mlem_eq_false_iff (error : ℚ) (M : ℕ) (ratio : List ℚ) :
    continue_mlem error M ratio = false ↔
      ∀ m < M, 1 - error < ratio.getD m 0 ∧ ratio.getD m 0 < 1 + error := by
  simp only [continue_mlem, List.any_eq_false, List.mem_range, Bool.or_eq_true,
    decide_eq_true_eq, not_or, not_le]
  constructor
  · intro h m hm
    exact ⟨(h m hm).2, (h m hm).1⟩
  · intro h m hm
    exact ⟨(h m hm).2, (h m hm).1⟩

/-- Both fields read but never written by the `runMLEM` loop body are
preserved by every iterate of the step function. -/
theorem iterate_mlemStep_fields (M B : ℕ) (s : MLEMState) :
    ∀ k, ((mlemStep M B)^[k] s).measurements = s.measurements ∧
         ((mlemStep M B)^[k] s).nns_response = s.nns_response := by
  intro k
  induction k with
  | zero => exact ⟨rfl, rfl⟩
  | succ n ih =>
    rw [Function.iterate_succ_apply']
    exact ⟨ih.1, ih.2⟩

end NeutronSpec

namespace NeutronSpec

/-- Projection of the step on the ratio field. -/
theorem mlemStep_ratio_def (M B : ℕ) (s : MLEMState) :
    (mlemStep M B s).mlem_ratio =
      mlem_ratio_vec M s.measurements
        (mlem_estimate M B s.nns_response s.spectrum) := rfl

/-- Projection of the step on the spectrum field. -/
theorem mlemStep_spectrum_def (M B : ℕ) (s : MLEMState) :
    (mlemStep M B s).spectrum =
      (List.range B).map (fun b =>
        s.spectrum.getD b 0 *
          (mlem_correction M B (transpose_response M B s.nns_response)
            (mlem_ratio_vec M s.measurements
              (mlem_estimate M B s.nns_response s.spectrum))).getD b 0 /
          (mlem_normalization M B (transpose_response M B s.nns_response)).getD b 0) := rfl

/-- Reading the transposed response at in-range indices flips the indices. -/
theorem transpose_entry (M B : ℕ) (resp : List (List ℚ)) {b m : ℕ}
    (hb : b < B) (hm : m < M) :
    respEntry (transpose_response M B resp) b m = respEntry resp m b := by
  show ((transpose_response M B resp).getD b []).getD m 0 = respEntry resp m b
  rw [transpose_response, getD_map_range [] _ hb, getD_map_range 0 _ hm]

/-- Entrywise nonnegativity of the response matrix transfers to reads. -/
theorem respEntry_nonneg (resp : List (List ℚ))
    (h : ∀ row ∈ resp, ∀ x ∈ row, 0 ≤ x) (m b : ℕ) :
    0 ≤ respEntry resp m b := by
  show 0 ≤ (resp.getD m []).getD b 0
  rcases Nat.lt_or_ge m resp.length with hm | hm
  · have hrow : resp.getD m [] = resp[m] := by
      rw [List.getD_eq_getElem?_getD, List.getElem?_eq_getElem hm]
      rfl
    rw [hrow]
    exact getD_nonneg _ (h _ (List.getElem_mem hm)) b
  · rw [getD_of_len_le [] resp hm, getD_of_len_le 0 [] (Nat.zero_le b)]

/-- The estimate vector has nonnegative entries on nonnegative inputs. -/
theorem mlem_estimate_nonneg (M B : ℕ) (resp : List (List ℚ)) (spec : List ℚ)
    (hresp : ∀ row ∈ resp, ∀ x ∈ row, 0 ≤ x) (hspec : ∀ x ∈ spec, 0 ≤ x) :
    ∀ x ∈ mlem_estimate M B resp spec, 0 ≤ x := by
  intro x hx
  rw [mlem_estimate] at hx
  obtain ⟨m, _, rfl⟩ := List.mem_map.mp hx
  refine List.sum_nonneg ?_
  intro y hy
  obtain ⟨b, _, rfl⟩ := List.mem_map.mp hy
  exact mul_nonneg (respEntry_nonneg resp hresp m b) (getD_nonneg spec hspec b)

/-- The ratio vector has nonnegative entries on nonnegative inputs. -/
theorem mlem_ratio_vec_nonneg (M : ℕ) (meas est : List ℚ)
    (hmeas : ∀ x ∈ meas, 0 ≤ x) (hest : ∀ x ∈ est, 0 ≤ x) :
    ∀ x ∈ mlem_ratio_vec M meas est, 0 ≤ x := by
  intro x hx
  rw [mlem_ratio_vec] at hx
  obtain ⟨m, _, rfl⟩ := List.mem_map.mp hx
  exact div_nonneg (getD_nonneg meas hmeas m) (getD_nonneg est hest m)

/-- The transposed response matrix has nonnegative entries. -/
theorem transpose_response_nonneg (M B : ℕ) (resp : List (List ℚ))
    (hresp : ∀ row ∈ resp, ∀ x ∈ row, 0 ≤ x) :
    ∀ row ∈ transpose_response M B resp, ∀ x ∈ row, 0 ≤ x := by
  intro row hrow x hx
  rw [transpose_response] at hrow
  obtain ⟨b, _, rfl⟩ := List.mem_map.mp hrow
  obtain ⟨m, _, rfl⟩ := List.mem_map.mp hx
  exact respEntry_nonneg resp hresp m b

/-- The correction vector has nonnegative entries on nonnegative inputs. -/
theorem mlem_correction_nonneg (M B : ℕ) (trans : List (List ℚ)) (ratio : List ℚ)
    (htrans : ∀ row ∈ trans, ∀ x ∈ row, 0 ≤ x) (hratio : ∀ x ∈ ratio, 0 ≤ x) :
    ∀ x ∈ mlem_correction M B trans ratio, 0 ≤ x := by
  intro x hx
  rw [mlem_correction] at hx
  obtain ⟨b, _, rfl⟩ := List.mem_map.mp hx
  refine List.sum_nonneg ?_
  intro y hy
  obtain ⟨m, _, rfl⟩ := List.mem_map.mp hy
  exact mul_nonneg (respEntry_nonneg trans htrans b m) (getD_nonneg ratio hratio m)

/-- The normalization vector has nonnegative entries. -/
theorem mlem_normalization_nonneg (M B : ℕ) (trans : List (List ℚ))
    (htrans : ∀ row ∈ trans, ∀ x ∈ row, 0 ≤ x) :
    ∀ x ∈ mlem_normalization M B trans, 0 ≤ x := by
  intro x hx
  rw [mlem_normalization] at hx
  obtain ⟨b, _, rfl⟩ := List.mem_map.mp hx
  refine List.sum_nonneg ?_
  intro y hy
  obtain ⟨m, _, rfl⟩ := List.mem_map.mp hy
  exact respEntry_nonneg trans htrans b m

/-- One step of the loop keeps the spectrum entrywise nonnegative. -/
theorem mlemStep_spectrum_nonneg (M B : ℕ) (s : MLEMState)
    (hresp : ∀ row ∈ s.nns_response, ∀ x ∈ row, 0 ≤ x)
    (hmeas : ∀ x ∈ s.measurements, 0 ≤ x)
    (hspec : ∀ x ∈ s.spectrum, 0 ≤ x) :
    ∀ x ∈ (mlemStep M B s).spectrum, 0 ≤ x := by
  intro x hx
  rw [mlemStep_spectrum_def] at hx
  obtain ⟨b, _, rfl⟩ := List.mem_map.mp hx
  have htrans := transpose_response_nonneg M B s.nns_response hresp
  have hest := mlem_estimate_nonneg M B s.nns_response s.spectrum hresp hspec
  have hratio := mlem_ratio_vec_nonneg M s.measurements _ hmeas hest
  refine div_nonneg (mul_nonneg (getD_nonneg _ hspec b) ?_) ?_
  · exact getD_nonneg _ (mlem_correction_nonneg M B _ _ htrans hratio) b
  · exact getD_nonneg _ (mlem_normalization_nonneg M B _ htrans) b

/-- Every iterate of the loop keeps the spectrum entrywise nonnegative. -/
theorem iterate_mlemStep_spectrum_nonneg (M B : ℕ) (s : MLEMState)
    (hresp : ∀ row ∈ s.nns_response, ∀ x ∈ row, 0 ≤ x)
    (hmeas : ∀ x ∈ s.measurements, 0 ≤ x)
    (hspec : ∀ x ∈ s.spectrum, 0 ≤ x) :
    ∀ k, ∀ x ∈ ((mlemStep M B)^[k] s).spectrum, 0 ≤ x := by
  intro k
  induction k with
  | zero => exact hspec
  | succ n ih =>
    rw [Function.iterate_succ_apply']
    refine mlemStep_spectrum_nonneg M B _ ?_ ?_ ih
    · rw [(iterate_mlemStep_fields M B s n).2]
      exact hresp
    · rw [(iterate_mlemStep_fields M B s n).1]
      exact hmeas

end NeutronSpec

namespace NeutronSpec

/-- C1: each `runMLEM` iteration computes
`estimate[m] = Σ_b response[m][b]*spectrum[b]`,
`ratio[m] = measurements[m]/estimate[m]`,
`correction[b] = Σ_m response[m][b]*ratio[m]`, and replaces `spectrum[b]` by
`spectrum[b]*correction[b]/normalized_response[b]` where
`normalized_response[b] = Σ_m response[m][b]` is the column sum. -/
theorem mlem_step_formulas (M B : ℕ) (s : MLEMState) (m b : ℕ)
    (hm : m < M) (hb : b < B) :
    (mlem_estimate M B s.nns_response s.spectrum).getD m 0 =
      ((List.range B).map
        (fun b2 => respEntry s.nns_response m b2 * s.spectrum.getD b2 0)).sum ∧
    (mlemStep M B s).mlem_ratio.getD m 0 =
      s.measurements.getD m 0 /
        (mlem_estimate M B s.nns_response s.spectrum).getD m 0 ∧
    (mlemStep M B s).spectrum.getD b 0 =
      s.spectrum.getD b 0 *
        ((List.range M).map (fun m2 =>
          respEntry s.nns_response m2 b *
            (mlemStep M B s).mlem_ratio.getD m2 0)).sum /
        ((List.range M).map (fun m2 => respEntry s.nns_response m2 b)).sum := by
  refine ⟨?_, ?_, ?_⟩
  · rw [mlem_estimate, getD_map_range 0 _ hm]
  · rw [mlemStep_ratio_def, mlem_ratio_vec, getD_map_range 0 _ hm]
  · rw [mlemStep_spectrum_def, getD_map_range 0 _ hb, mlem_correction,
      getD_map_range 0 _ hb, mlem_normalization, getD_map_range 0 _ hb,
      mlemStep_ratio_def]
    have e1 : (List.range M).map (fun m2 =>
        respEntry (transpose_response M B s.nns_response) b m2 *
          (mlem_ratio_vec M s.measurements
            (mlem_estimate M B s.nns_response s.spectrum)).getD m2 0) =
      (List.range M).map (fun m2 =>
        respEntry s.nns_response m2 b *
          (mlem_ratio_vec M s.measurements
            (mlem_estimate M B s.nns_response s.spectrum)).getD m2 0) :=
      List.map_congr_left (fun a ha => by
        rw [transpose_entry M B s.nns_response hb (List.mem_range.mp ha)])
    have e2 : (List.range M).map
        (fun m2 => respEntry (transpose_response M B s.nns_response) b m2) =
      (List.range M).map (fun m2 => respEntry s.nns_response m2 b) :=
      List.map_congr_left (fun a ha => by
        rw [transpose_entry M B s.nns_response hb (List.mem_range.mp ha)])
    rw [e1, e2]

/-- Witness for C1 at the concrete scenario state, `m = 0`, `b = 1`. -/
theorem mlem_step_formulas_witness :
    ((0:ℕ) < 2 ∧ (1:ℕ) < 2) ∧
    ((mlem_estimate 2 2 sC5.nns_response sC5.spectrum).getD 0 0 =
      ((List.range 2).map
        (fun b2 => respEntry sC5.nns_response 0 b2 * sC5.spectrum.getD b2 0)).sum ∧
    (mlemStep 2 2 sC5).mlem_ratio.getD 0 0 =
      sC5.measurements.getD 0 0 /
        (mlem_estimate 2 2 sC5.nns_response sC5.spectrum).getD 0 0 ∧
    (mlemStep 2 2 sC5).spectrum.getD 1 0 =
      sC5.spectrum.getD 1 0 *
        ((List.range 2).map (fun m2 =>
          respEntry sC5.nns_response m2 1 *
            (mlemStep 2 2 sC5).mlem_ratio.getD m2 0)).sum /
        ((List.range 2).map (fun m2 => respEntry sC5.nns_response m2 1)).sum) :=
  ⟨⟨by decide, by decide⟩, mlem_step_formulas 2 2 sC5 0 1 (by decide) (by decide)⟩

/-- C2: with a nonnegative response matrix, positive column sums, nonnegative
measurements and a nonnegative initial spectrum, every entry of the spectrum
is still nonnegative after any number of MLEM iterations of `runMLEM`. -/
theorem runMLEM_spectrum_nonneg (cutoff : ℕ) (error : ℚ) (M B : ℕ)
    (s : MLEMState)
    (hresp : ∀ row ∈ s.nns_response, ∀ x ∈ row, 0 ≤ x)
    (hcol : ∀ b < B,
      0 < ((List.range M).map (fun m => respEntry s.nns_response m b)).sum)
    (hmeas : ∀ x ∈ s.measurements, 0 ≤ x)
    (hspec : ∀ x ∈ s.spectrum, 0 ≤ x) :
    (∀ k, ∀ x ∈ ((mlemStep M B)^[k] s).spectrum, 0 ≤ x) ∧
    (∀ x ∈ (runMLEM cutoff error M B s).2.spectrum, 0 ≤ x) := by
  refine ⟨iterate_mlemStep_spectrum_nonneg M B s hresp hmeas hspec, ?_⟩
  obtain ⟨k, _, he⟩ := unfoldGo_snd_iterate (mlemStep M B) error M (cutoff - 1) 1 s
  rw [show (runMLEM cutoff error M B s).2 = (mlemStep M B)^[k] s from he]
  exact iterate_mlemStep_spectrum_nonneg M B s hresp hmeas hspec k

/-- Witness for C2 at the concrete scenario state. -/
theorem runMLEM_spectrum_nonneg_witness :
    (∀ row ∈ sC5.nns_response, ∀ x ∈ row, 0 ≤ x) ∧
    (∀ b < 2,
      0 < ((List.range 2).map (fun m => respEntry sC5.nns_response m b)).sum) ∧
    (∀ x ∈ sC5.measurements, 0 ≤ x) ∧
    (∀ x ∈ sC5.spectrum, 0 ≤ x) ∧
    ((∀ k, ∀ x ∈ ((mlemStep 2 2)^[k] sC5).spectrum, 0 ≤ x) ∧
     (∀ x ∈ (runMLEM 100 (1/100) 2 2 sC5).2.spectrum, 0 ≤ x)) :=
  ⟨by with_unfolding_all decide, by with_unfolding_all decide,
   by with_unfolding_all decide, by with_unfolding_all decide,
   runMLEM_spectrum_nonneg 100 (1/100) 2 2 sC5 (by with_unfolding_all decide)
     (by with_unfolding_all decide) (by with_unfolding_all decide)
     (by with_unfolding_all decide)⟩

/-- C5: on `response = [[1,0],[0,1]]`, `measurements = [2,3]`,
`initial_spectrum = [1,1]`, `error = 1/100`, `cutoff = 100`: the first
iteration computes estimate `[1,1]` and ratio `[2,3]` and the spectrum
becomes exactly `[2,3]`; the second iteration's ratio is `[1,1]`, which is
within tolerance, so `runMLEM` returns exactly `2` with final spectrum
`[2,3]`. -/
theorem runMLEM_concrete_scenario :
    mlem_estimate 2 2 sC5.nns_response sC5.spectrum = [1, 1] ∧
    (mlemStep 2 2 sC5).mlem_ratio = [2, 3] ∧
    (mlemStep 2 2 sC5).spectrum = [2, 3] ∧
    (mlemStep 2 2 (mlemStep 2 2 sC5)).mlem_ratio = [1, 1] ∧
    runMLEM 100 (1/100) 2 2 sC5 =
      (2, { measurements := [2, 3], spectrum := [2, 3],
            nns_response := [[1, 0], [0, 1]], mlem_ratio := [1, 1] }) := by
  with_unfolding_all decide

/-- C10: `runMLEM` leaves the `measurements` vector and the `nns_response`
matrix unchanged; among its by-reference parameters only `spectrum` and
`mlem_ratio` are written by the loop body. -/
theorem runMLEM_frame (cutoff : ℕ) (error : ℚ) (M B : ℕ) (s : MLEMState) :
    (runMLEM cutoff error M B s).2.measurements = s.measurements ∧
    (runMLEM cutoff error M B s).2.nns_response = s.nns_response := by
  obtain ⟨k, _, he⟩ := unfoldGo_snd_iterate (mlemStep M B) error M (cutoff - 1) 1 s
  rw [show (runMLEM cutoff error M B s).2 = (mlemStep M B)^[k] s from he]
  exact iterate_mlemStep_fields M B s k

end NeutronSpec

namespace NeutronSpec

/-- Counterexample to C3: with `error = 1/2` and first-iteration ratio
exactly `3/2 = 1 + error`, every ratio lies in the CLOSED interval
`[1-error, 1+error]`, yet the run does not terminate before the cap
(`cutoff = 2` is exhausted and `runMLEM` returns `2`): the code's
continuation test `>= (1+error) || <= (1-error)` keeps iterating on the
endpoints. -/
theorem closed_interval_ratio_does_not_stop :
    (∀ m < 1, 1 - (1/2 : ℚ) ≤ (mlemStep 1 1 sC3).mlem_ratio.getD m 0 ∧
      (mlemStep 1 1 sC3).mlem_ratio.getD m 0 ≤ 1 + (1/2 : ℚ)) ∧
    ¬ ((runMLEM 2 (1/2) 1 1 sC3).1 < 2) := by
  with_unfolding_all decide

/-- C3 (amended): `runMLEM` terminates before reaching the iteration cap
exactly when, at some executed iteration, every `ratio[m]` for all
measurements `m` simultaneously lies STRICTLY inside the open interval
`(1-error, 1+error)`; a single measurement whose ratio falls outside that
open interval (including exactly on an endpoint) prevents early
termination. -/
theorem runMLEM_early_stop_iff (cutoff : ℕ) (error : ℚ) (M B : ℕ)
    (s : MLEMState) (hcut : 1 ≤ cutoff) :
    (runMLEM cutoff error M B s).1 < cutoff ↔
      ∃ k < cutoff - 1, ∀ m < M,
        1 - error < ((mlemStep M B)^[k+1] s).mlem_ratio.getD m 0 ∧
        ((mlemStep M B)^[k+1] s).mlem_ratio.getD m 0 < 1 + error := by
  have hle : (unfoldGo (mlemStep M B) error M (cutoff - 1) 1 s).1 ≤ 1 + (cutoff - 1) :=
    unfoldGo_fst_le (mlemStep M B) error M (cutoff - 1) 1 s
  have heq : (unfoldGo (mlemStep M B) error M (cutoff - 1) 1 s).1 = 1 + (cutoff - 1) ↔
      ∀ k < cutoff - 1,
        continue_mlem error M ((mlemStep M B)^[k+1] s).mlem_ratio = true := by
    constructor
    · exact forall_continue_of_unfoldGo_eq (mlemStep M B) error M (cutoff - 1) 1 s
    · intro h
      rw [unfoldGo_eq_of_forall_continue (mlemStep M B) error M (cutoff - 1) 1 s h]
  have hfst : (runMLEM cutoff error M B s).1 =
      (unfoldGo (mlemStep M B) error M (cutoff - 1) 1 s).1 := rfl
  rw [hfst]
  constructor
  · intro hlt
    have hne : ¬ ((unfoldGo (mlemStep M B) error M (cutoff - 1) 1 s).1
        = 1 + (cutoff - 1)) := by
      omega
    rw [heq] at hne
    push_neg at hne
    obtain ⟨k, hk, hc⟩ := hne
    exact ⟨k, hk,
      (continue_mlem_eq_false_iff error M _).mp (Bool.eq_false_iff.mpr hc)⟩
  · rintro ⟨k, hk, hstrict⟩
    have hc : continue_mlem error M ((mlemStep M B)^[k+1] s).mlem_ratio = false :=
      (continue_mlem_eq_false_iff error M _).mpr hstrict
    have hne : (unfoldGo (mlemStep M B) error M (cutoff - 1) 1 s).1
        ≠ 1 + (cutoff - 1) := by
      intro he
      have h2 := (heq.mp he) k hk
      rw [h2] at hc
      exact Bool.noConfusion hc
    omega

/-- Witness for C3 (amended) at a converging concrete input: ratio `[1]`
after iteration 1, so the run stops early. -/
theorem runMLEM_early_stop_iff_witness :
    (1:ℕ) ≤ 2 ∧
    ((runMLEM 2 (1/2) 1 1 sC3w).1 < 2 ↔
      ∃ k < 2 - 1, ∀ m < 1,
        1 - (1/2:ℚ) < ((mlemStep 1 1)^[k+1] sC3w).mlem_ratio.getD m 0 ∧
        ((mlemStep 1 1)^[k+1] sC3w).mlem_ratio.getD m 0 < 1 + (1/2:ℚ)) :=
  ⟨by decide, runMLEM_early_stop_iff 2 (1/2) 1 1 sC3w (by decide)⟩

/-- Counterexample to C4: on a non-converging input with `cutoff = 2` the
single executed loop iteration leaves the ratio outside tolerance, the
loop guard fails after the post-increment, and `runMLEM` returns
`mlem_index = 2 = cutoff`, which exceeds `cutoff - 1 = 1`. -/
theorem exhausted_run_returns_cutoff :
    (runMLEM 2 (1/2) 1 1 sC4).1 = 2 ∧
    ¬ ((runMLEM 2 (1/2) 1 1 sC4).1 ≤ 2 - 1) := by
  with_unfolding_all decide

/-- C4 (amended): for `cutoff ≥ 1` the value returned by `runMLEM` never
exceeds `cutoff` (it equals `cutoff` exactly when the cap is exhausted),
and the number of update steps actually applied to the state never exceeds
`cutoff - 1`. -/
theorem runMLEM_cap (cutoff : ℕ) (error : ℚ) (M B : ℕ) (s : MLEMState)
    (hcut : 1 ≤ cutoff) :
    (runMLEM cutoff error M B s).1 ≤ cutoff ∧
    ∃ k ≤ cutoff - 1, (runMLEM cutoff error M B s).2 = (mlemStep M B)^[k] s := by
  constructor
  · have h2 : (runMLEM cutoff error M B s).1 ≤ 1 + (cutoff - 1) :=
      unfoldGo_fst_le (mlemStep M B) error M (cutoff - 1) 1 s
    omega
  · exact unfoldGo_snd_iterate (mlemStep M B) error M (cutoff - 1) 1 s

/-- Witness for C4 (amended) at the non-converging input with `cutoff = 2`. -/
theorem runMLEM_cap_witness :
    (1:ℕ) ≤ 2 ∧
    ((runMLEM 2 (1/2) 1 1 sC4).1 ≤ 2 ∧
     ∃ k ≤ 2 - 1, (runMLEM 2 (1/2) 1 1 sC4).2 = (mlemStep 1 1)^[k] sC4) :=
  ⟨by decide, runMLEM_cap 2 (1/2) 1 1 sC4 (by decide)⟩

/-- Counterexample to C6: on `response = [[0]]`, `measurements = [1]`,
`spectrum = [1]` the first iteration's estimate is exactly `[0]`, yet
`runMLEM` — whose body contains no check and no error path — executes the
division and the update and returns the ordinary iteration count `2`
(here `cutoff = 2`, so the count is `2` for every possible ratio value and
is therefore insensitive to how the division by zero itself is modelled);
no `DivergenceError` or any failure is signalled to the caller. -/
theorem zero_estimate_is_not_fatal :
    mlem_estimate 1 1 sC6.nns_response sC6.spectrum = [0] ∧
    (runMLEM 2 (1/2) 1 1 sC6).1 = 2 := by
  with_unfolding_all decide

/-- C6 (amended): `runMLEM` performs no check on a vanishing
`mlem_estimate[m]`: the ratio division is executed regardless, iteration
continues, and the function always returns an ordinary iteration count in
`[1, 1 + (cutoff-1)]` — there is no `DivergenceError` and no failure path
at all. -/
theorem runMLEM_returns_normally_on_zero_estimate (cutoff : ℕ) (error : ℚ)
    (M B : ℕ) (s : MLEMState)
    (h : ∃ m < M, (mlem_estimate M B s.nns_response s.spectrum).getD m 0 = 0) :
    1 ≤ (runMLEM cutoff error M B s).1 ∧
    (runMLEM cutoff error M B s).1 ≤ 1 + (cutoff - 1) :=
  ⟨unfoldGo_le_fst (mlemStep M B) error M (cutoff - 1) 1 s,
   unfoldGo_fst_le (mlemStep M B) error M (cutoff - 1) 1 s⟩

/-- Witness for C6 (amended) at the zero-estimate input. -/
theorem runMLEM_returns_normally_on_zero_estimate_witness :
    (∃ m < 1, (mlem_estimate 1 1 sC6.nns_response sC6.spectrum).getD m 0 = 0) ∧
    (1 ≤ (runMLEM 2 (1/2) 1 1 sC6).1 ∧
     (runMLEM 2 (1/2) 1 1 sC6).1 ≤ 1 + (2 - 1)) :=
  ⟨by with_unfolding_all decide,
   runMLEM_returns_normally_on_zero_estimate 2 (1/2) 1 1 sC6
     (by with_unfolding_all decide)⟩

end NeutronSpec

namespace NeutronSpec

/-- C7: running `runMLEM` for `a` update steps (cutoff `a+1`) and then `b`
more from the resulting in-place state yields exactly the same state as a
single run of `a+b` steps (cutoff `a+b+1`) from the original spectrum,
provided the tolerance-based early stop triggers in neither run (expressed
as both runs returning their exhausted-cap index); in the rational model
the equality is exact. -/
theorem runMLEM_resume (a b : ℕ) (error : ℚ) (M B : ℕ) (s : MLEMState)
    (ha : 0 < a) (hb : 0 < b)
    (h1 : (runMLEM (a + 1) error M B s).1 = a + 1)
    (h2 : (runMLEM (b + 1) error M B (runMLEM (a + 1) error M B s).2).1 = b + 1) :
    (runMLEM (b + 1) error M B (runMLEM (a + 1) error M B s).2).2 =
      (runMLEM (a + b + 1) error M B s).2 ∧
    (runMLEM (a + b + 1) error M B s).1 = a + b + 1 := by
  have ea : (a + 1) - 1 = a := by omega
  have eb : (b + 1) - 1 = b := by omega
  have eab : (a + b + 1) - 1 = a + b := by omega
  have h1u : (unfoldGo (mlemStep M B) error M a 1 s).1 = 1 + a := by
    have h1x : (unfoldGo (mlemStep M B) error M ((a + 1) - 1) 1 s).1 = a + 1 := h1
    rw [ea] at h1x
    omega
  have hc1 := forall_continue_of_unfoldGo_eq (mlemStep M B) error M a 1 s h1u
  have e1 := unfoldGo_eq_of_forall_continue (mlemStep M B) error M a 1 s hc1
  have e1s : (runMLEM (a + 1) error M B s).2 = (mlemStep M B)^[a] s := by
    show (unfoldGo (mlemStep M B) error M ((a + 1) - 1) 1 s).2 = (mlemStep M B)^[a] s
    rw [ea, e1]
  have h2u : (unfoldGo (mlemStep M B) error M b 1 ((mlemStep M B)^[a] s)).1 = 1 + b := by
    have h2x : (unfoldGo (mlemStep M B) error M ((b + 1) - 1) 1
        ((runMLEM (a + 1) error M B s).2)).1 = b + 1 := h2
    rw [eb, e1s] at h2x
    omega
  have hc2 := forall_continue_of_unfoldGo_eq (mlemStep M B) error M b 1
    ((mlemStep M B)^[a] s) h2u
  have e2 := unfoldGo_eq_of_forall_continue (mlemStep M B) error M b 1
    ((mlemStep M B)^[a] s) hc2
  have hcall : ∀ k < a + b,
      continue_mlem error M (((mlemStep M B)^[k+1]) s).mlem_ratio = true := by
    intro k hk
    by_cases hka : k < a
    · exact hc1 k hka
    · have hj : k - a < b := by omega
      have hcj := hc2 (k - a) hj
      rw [← Function.iterate_add_apply] at hcj
      have harith : k - a + 1 + a = k + 1 := by omega
      rwa [harith] at hcj
  have e3 := unfoldGo_eq_of_forall_continue (mlemStep M B) error M (a + b) 1 s hcall
  have efin : runMLEM (a + b + 1) error M B s
      = (1 + (a + b), (mlemStep M B)^[a + b] s) := by
    show unfoldGo (mlemStep M B) error M ((a + b + 1) - 1) 1 s = _
    rw [eab, e3]
  constructor
  · have elhs : (runMLEM (b + 1) error M B (runMLEM (a + 1) error M B s).2).2
        = (mlemStep M B)^[b] ((mlemStep M B)^[a] s) := by
      show (unfoldGo (mlemStep M B) error M ((b + 1) - 1) 1
        ((runMLEM (a + 1) error M B s).2)).2 = _
      rw [eb, e1s, e2]
    rw [elhs, efin, ← Function.iterate_add_apply]
    show (mlemStep M B)^[b + a] s = (mlemStep M B)^[a + b] s
    rw [Nat.add_comm b a]
  · rw [efin]
    show 1 + (a + b) = a + b + 1
    omega

/-- Witness for C7: `a = b = 1` on the never-converging two-measurement
input; each run exhausts its cap and the composed state equals the single
three-cutoff run's state. -/
theorem runMLEM_resume_witness :
    (0:ℕ) < 1 ∧
    (runMLEM 2 (1/2) 2 1 sC7).1 = 2 ∧
    (runMLEM 2 (1/2) 2 1 (runMLEM 2 (1/2) 2 1 sC7).2).1 = 2 ∧
    ((runMLEM 2 (1/2) 2 1 (runMLEM 2 (1/2) 2 1 sC7).2).2 =
       (runMLEM 3 (1/2) 2 1 sC7).2 ∧
     (runMLEM 3 (1/2) 2 1 sC7).1 = 3) :=
  ⟨by decide, by with_unfolding_all decide, by with_unfolding_all decide,
   runMLEM_resume 1 1 (1/2) 2 1 sC7 (by decide) (by decide)
     (by with_unfolding_all decide) (by with_unfolding_all decide)⟩

/-- C8: because the accumulator `sq` is never zero-initialized before the
`+=` loop, the per-bin averaged squared deviation reported by the
Poisson-resampling estimator equals the indeterminate initial content of
the stack array plus the claimed sum.  Concretely, with
`num_poisson_samples = 1` and the single replicate spectrum identical to
the reference spectrum `[5]`, the value under the square root is exactly
the uninitialized junk value — the reported uncertainty
`sqrt(sq_average)` is `0` only in the accident `junk = 0`. -/
theorem sq_average_equals_junk (junk : ℚ) :
    sq_average [junk] 1 1 [[5]] [5] = [junk] := by
  have h1 : List.range 1 = [0] := rfl
  simp [sq_average, sq_accum, h1]

/-- C9: with `beta = 0` the MAP solver's trajectory coincides, state for
state (hence bin for bin), with the plain MLEM solver's trajectory for
every abstract prior gradient, every iteration count, and every input, and
the full `runMAP` run returns exactly what `runMLEM` returns. -/
theorem runMAP_beta_zero (priorGrad : List ℚ → ℕ → ℚ) (cutoff : ℕ)
    (error : ℚ) (M B : ℕ) (s : MLEMState) :
    (∀ n : ℕ, (mapStep 0 priorGrad M B)^[n] s = (mlemStep M B)^[n] s) ∧
    runMAP 0 priorGrad cutoff error M B s = runMLEM cutoff error M B s := by
  have hstep : mapStep 0 priorGrad M B = mlemStep M B := by
    funext s2
    simp [mapStep, mlemStep, energy_correction]
  constructor
  · intro n
    rw [hstep]
  · rw [runMAP, runMLEM, hstep]

end NeutronSpec
